import Mathlib

/-!
# Verification of the cuso multivariate Coppersmith solver

Shallow embedding of the parts of the `cuso` code base (data model, bound
checking, relation-ideal modulus arithmetic, shift-polynomial selection,
Howgrave-Graham dual root recovery, recentering converters, ideal-selection
enumeration, and the solver orchestration loops) that the specification's
claims talk about, together with theorems settling those claims.

Python/Sage values are idealized in the usual way: Python `int` and Sage
`Integer` become `ℤ`, exact Sage rationals become `ℚ`, floats that only enter
through comparisons become `ℚ`, Python `None` becomes `Option.none`, raised
exceptions become `Except.error`, and Python dicts keyed by Sage variables
become association lists keyed by variable names (`String`), looked up with
`List.lookup` (dict keys are unique in all executions modelled here).
-/

namespace Cuso

/-- Variables (Sage symbols / polynomial-ring generators) are identified by
their name. -/
abbrev Var := String

/-! ## Relation moduli and `RelationIdeal` modulus arithmetic

`cuso/data/relation_ideal.py`.  A `RelationIdeal` carries a shared modulus
constraint which is either `None` (exact integer constraint) or a value.  The
claims C1 is about concern only the modulus bookkeeping of `__add__` and
`__mul__`, which we embed here for integer moduli. -/

/-- A relation-ideal modulus: `none` is Python `None` (exact integer
constraint), `some m` a known integer modulus. -/
abbrev IdealModulus := Option ℤ

/-- Modulus bookkeeping of `RelationIdeal.__add__`
(`relation_ideal.py` lines 86-93): if either modulus is `None` the result
takes the other; otherwise the result is `gcd(self.modulus, other.modulus)`
(the final `int(...)` cast of a Sage `Integer` is the identity here). -/
def RelationIdeal.addModulus : IdealModulus → IdealModulus → IdealModulus
  | none, b => b
  | some a, none => some a
  | some a, some b => some (Int.gcd a b)

/-- Modulus bookkeeping of `RelationIdeal.__mul__`
(`relation_ideal.py` lines 119-124): if either modulus is `None` the result
takes the other; otherwise the result is `self.modulus * other.modulus`. -/
def RelationIdeal.mulModulus : IdealModulus → IdealModulus → IdealModulus
  | none, b => b
  | some a, none => some a
  | some a, some b => some (a * b)

/-- Soundness context for the `gcd` in `__add__`: a relation ideal's invariant
is that every member vanishes at the bounded root modulo the ideal's modulus.
For a sum `f₁ + f₂` with `p₁ ∣ f₁(r)` and `p₂ ∣ f₂(r)` only the gcd of the
moduli is guaranteed to divide `f₁(r) + f₂(r)`. -/
lemma gcd_dvd_add_of_dvd (p₁ p₂ v₁ v₂ : ℤ) (h₁ : p₁ ∣ v₁) (h₂ : p₂ ∣ v₂) :
    (Int.gcd p₁ p₂ : ℤ) ∣ v₁ + v₂ :=
  dvd_add (Int.gcd_dvd_left.trans h₁) (Int.gcd_dvd_right.trans h₂)

/-- The `lcm` rule stated by the spec would be unsound for ideal sums: `2 ∣ 2`
and `3 ∣ 3`, but `lcm 2 3 = 6` does not divide `2 + 3`. -/
lemma lcm_add_modulus_unsound :
    (2 : ℤ) ∣ 2 ∧ (3 : ℤ) ∣ 3 ∧ ¬ ((Int.lcm 2 3 : ℤ) ∣ 2 + 3) := by decide

/-! ## Bounds: `cuso/data/bounds/bound.py` and `bound_set.py` -/

/-- `Bound`: an interval constraint on one variable; either end may be
absent (`None`). -/
structure Bound where
  lower : Option ℤ
  upper : Option ℤ
deriving DecidableEq, Repr

/-- `Bound.__contains__` (`bound.py` lines 27-32): `value` is inside the
bound unless it is `≤ lower` (when a lower bound is set) or `≥ upper`
(when an upper bound is set).  Both ends are exclusive. -/
def Bound.containsVal (b : Bound) (value : ℤ) : Bool :=
  if (match b.lower with | some lo => decide (value ≤ lo) | none => false) then false
  else if (match b.upper with | some hi => decide (value ≥ hi) | none => false) then false
  else true

/-- A `BoundSet` is a dict from variables to `Bound`s, modelled as an
association list (iteration order = insertion order). -/
abbrev BoundSet := List (Var × Bound)

/-- A (partial) solution: a dict from variables to integers, modelled as an
association list with unique keys. -/
abbrev Sol := List (Var × ℤ)

/-- `BoundSet.check` (`bound_set.py` lines 108-127): for every bounded
variable that the solution assigns, test membership in its bound; bounded
variables absent from the solution are skipped (`continue`).  The
`TypeError` guard on non-integer values is vacuous here since values are
`ℤ` by construction. -/
def BoundSet.check (bs : BoundSet) (solution : Sol) : Bool :=
  bs.all fun xb =>
    match solution.lookup xb.1 with
    | none => true
    | some val => xb.2.containsVal val

/-! ## Claim C1: `RelationIdeal` modulus arithmetic

The claim states the sum's modulus is `lcm(a,b)`.  The code computes
`gcd(a,b)` (`relation_ideal.py` line 91), and `gcd` — not `lcm` — is what the
relation-ideal invariant supports (`gcd_dvd_add_of_dvd`,
`lcm_add_modulus_unsound` above), so the code is taken as authoritative. -/

/-- C1, counterexample: for moduli `2` and `3`, the sum ideal's modulus
computed by `RelationIdeal.__add__` is `gcd 2 3 = 1`, not `lcm 2 3 = 6` as
the claim states. -/
theorem c1_addModulus_not_lcm :
    RelationIdeal.addModulus (some 2) (some 3) = some 1 ∧
    RelationIdeal.addModulus (some 2) (some 3) ≠ some (Int.lcm 2 3) := by
  decide

/-- C1 (amended): for ideals with moduli `a` and `b`, the sum's modulus is
`gcd(a,b)`, the product's modulus is `a*b`, and a `None` modulus acts as
identity for both operations in both argument orders. -/
theorem c1_modulus_arithmetic (a b : ℤ) :
    RelationIdeal.addModulus (some a) (some b) = some (Int.gcd a b) ∧
    RelationIdeal.mulModulus (some a) (some b) = some (a * b) ∧
    (∀ m : IdealModulus,
      RelationIdeal.addModulus none m = m ∧
      RelationIdeal.addModulus m none = m ∧
      RelationIdeal.mulModulus none m = m ∧
      RelationIdeal.mulModulus m none = m) := by
  refine ⟨rfl, rfl, fun m => ?_⟩
  cases m <;> exact ⟨rfl, rfl, rfl, rfl⟩

/-! ## Claim C9: bounds are exclusive on both ends -/

/-- C9: `BoundSet.check` is `false` whenever the solution assigns, to a
variable with a declared bound `(lower, upper)`, a value that is `≤ lower`
or `≥ upper`; in particular a value equal to a bound edge fails. -/
theorem c9_bounds_exclusive (bs : BoundSet) (solution : Sol) (x : Var)
    (b : Bound) (lo hi val : ℤ)
    (hmem : (x, b) ∈ bs) (hval : solution.lookup x = some val)
    (hlo : b.lower = some lo) (hhi : b.upper = some hi)
    (hout : val ≤ lo ∨ hi ≤ val) :
    BoundSet.check bs solution = false := by
  rw [BoundSet.check, List.all_eq_false]
  refine ⟨(x, b), hmem, ?_⟩
  simp only [hval]
  rw [Bound.containsVal, hlo, hhi]
  rcases hout with h | h <;> simp [h, ge_iff_le]

/-- C9 witness: the bound set `{x : (0, 10)}` rejects the solution `{x = 10}`
(upper edge) — and the theorem applies at that input. -/
theorem c9_witness :
    BoundSet.check [("x", ⟨some 0, some 10⟩)] [("x", 10)] = false :=
  c9_bounds_exclusive [("x", ⟨some 0, some 10⟩)] [("x", 10)] "x"
    ⟨some 0, some 10⟩ 0 10 10 (by decide) (by decide) rfl rfl (Or.inr le_rfl)

/-! ## Claim C10: unassigned bounded variables are skipped -/

/-- C10: `BoundSet.check` only tests bounds of variables the solution
assigns; if no bounded variable is assigned (in particular for the empty
solution) the check returns `true`. -/
theorem c10_check_skips_unassigned (bs : BoundSet) (solution : Sol)
    (h : ∀ xb ∈ bs, solution.lookup xb.1 = none) :
    BoundSet.check bs solution = true := by
  rw [BoundSet.check, List.all_eq_true]
  intro xb hmem
  rw [h xb hmem]

/-- C10 witness: a bound set on `x` passes a solution that assigns only `y`,
via the theorem. -/
theorem c10_witness :
    BoundSet.check [("x", ⟨some 0, some 10⟩)] [("y", 3)] = true :=
  c10_check_skips_unassigned [("x", ⟨some 0, some 10⟩)] [("y", 3)]
    (by decide)

/-! ## Claim C4: intermediate output sizes in `OptimalShiftPolys`

`cuso/strategy/shift_polynomial_selection/optimal.py`. -/

/-- Sage's `is_power_of_two(n)`: `true` iff `n` is a (nonnegative) power of
two; in particular `is_power_of_two(1)` is `true`.  Embedded as a bounded
search (`n = 2^k` forces `k < n + 1`). -/
def isPowerOfTwo (n : ℕ) : Bool :=
  (List.range (n + 1)).any fun k => n == 2 ^ k

lemma isPowerOfTwo_iff (n : ℕ) : isPowerOfTwo n = true ↔ ∃ k, n = 2 ^ k := by
  rw [isPowerOfTwo, List.any_eq_true]
  constructor
  · rintro ⟨k, _, hk⟩
    exact ⟨k, by simpa using hk⟩
  · rintro ⟨k, rfl⟩
    exact ⟨k, List.mem_range.mpr (Nat.lt_succ_of_lt (Nat.lt_two_pow k)), by simp⟩

/-- `OptimalShiftPolys._is_intermediate_output_size` (`optimal.py` lines
59-69): `false` for `sz < 2`; otherwise `true` iff `sz` is a power of two,
or `sz` is divisible by 3 with `sz // 3` a power of two. -/
def isIntermediateOutputSize (sz : ℕ) : Bool :=
  if sz < 2 then false
  else if isPowerOfTwo sz then true
  else if sz % 3 == 0 && isPowerOfTwo (sz / 3) then true
  else false

/-- One loop step of `OptimalShiftPolys._get_shift_polys_for_ideal`
(`optimal.py` lines 80-94), processing the outcomes of
`_get_shift_poly_with_lm`, one per admissible monomial (`none` when no
Groebner-basis element divides the monomial, in which case nothing is
appended).  `acc` is the accumulated `shift_polys` list and `out` the list
of yields so far; after the loop, a final yield is emitted when the last
iteration did not already yield (and the accumulated list is non-empty). -/
def shiftPolyLoop {α : Type} (useInter : Bool) :
    List (Option α) → List α → List (List α) → List (List α)
  | [], acc, out =>
      if (!useInter || !isIntermediateOutputSize acc.length) && acc.length != 0
      then out ++ [acc] else out
  | r :: rest, acc, out =>
      let acc' := acc ++ r.toList
      let out' := if useInter && isIntermediateOutputSize acc'.length
        then out ++ [acc'] else out
      shiftPolyLoop useInter rest acc' out'

/-- The full sequence of `RelationSet`s yielded by
`_get_shift_polys_for_ideal` for one ideal, as a function of the
per-monomial shift-polynomial outcomes. -/
def getShiftPolysForIdeal {α : Type} (useInter : Bool)
    (results : List (Option α)) : List (List α) :=
  shiftPolyLoop useInter results [] []

/-- Loop invariant: with intermediate outputs enabled, every batch the loop
yields other than (possibly) the last one has an intermediate-size length. -/
lemma shiftPolyLoop_dropLast_intermediate {α : Type} (results : List (Option α)) :
    ∀ (acc : List α) (out : List (List α)),
    (∀ l ∈ out, isIntermediateOutputSize l.length = true) →
    ∀ l ∈ (shiftPolyLoop true results acc out).dropLast,
    isIntermediateOutputSize l.length = true := by
  induction results with
  | nil =>
    intro acc out hout l hl
    rw [shiftPolyLoop] at hl
    by_cases hg : ((!true || !isIntermediateOutputSize acc.length) &&
        acc.length != 0) = true
    · rw [if_pos hg, List.dropLast_concat] at hl
      exact hout l hl
    · rw [if_neg hg] at hl
      exact hout l ((List.dropLast_sublist out).subset hl)
  | cons r rest ih =>
    intro acc out hout l hl
    rw [shiftPolyLoop] at hl
    refine ih _ _ ?_ l hl
    intro l' hl'
    by_cases hg : (true && isIntermediateOutputSize (acc ++ r.toList).length) = true
    · rw [if_pos hg] at hl'
      rcases List.mem_append.mp hl' with h | h
      · exact hout l' h
      · rw [List.mem_singleton.mp h]
        simpa using hg
    · rw [if_neg hg] at hl'
      exact hout l' hl'

/-- C4, counterexample: the claim's canonical set — values of the form `2^n`
or `3·2^n` — contains `1 = 2^0` (the spec lists it: `{1,2,4,6,8,...}`), but
the code's predicate rejects `1` (the `sz < 2` guard); accordingly a run
that accumulates a single shift polynomial yields no length-1 intermediate
output, only the final batch.  (The code also accepts `3 = 3·2^0`, which the
spec's listed set omits.) -/
theorem c4_size_one_not_intermediate :
    isIntermediateOutputSize 1 = false ∧ 1 = 2 ^ 0 ∧
    getShiftPolysForIdeal true [some ()] = [[()]] ∧
    isIntermediateOutputSize ((getShiftPolysForIdeal true [some ()]).head!.length) = false ∧
    isIntermediateOutputSize 3 = true := by
  decide

/-- C4 (amended): the intermediate-size predicate accepts exactly the sizes
`sz ≥ 2` of the form `2^n` or `3·2^n` — i.e. `{2,3,4,6,8,12,16,24,...}`,
not `{1,2,4,6,8,...}` — and with intermediate outputs enabled every
non-final batch yielded by the shift-polynomial loop has such a length. -/
theorem c4_intermediate_sizes :
    (∀ sz : ℕ, isIntermediateOutputSize sz = true ↔
      (2 ≤ sz ∧ ∃ n : ℕ, sz = 2 ^ n ∨ sz = 3 * 2 ^ n)) ∧
    (∀ (results : List (Option Unit))
      (l : List Unit), l ∈ (getShiftPolysForIdeal true results).dropLast →
      isIntermediateOutputSize l.length = true) := by
  constructor
  · intro sz
    rw [isIntermediateOutputSize]
    by_cases h2 : sz < 2
    · rw [if_pos h2]
      constructor
      · intro h
        exact absurd h (by decide)
      · rintro ⟨hle, -⟩
        exact absurd hle (by omega)
    · rw [if_neg h2]
      by_cases hp : isPowerOfTwo sz = true
      · rw [if_pos hp]
        simp only [true_iff]
        obtain ⟨k, hk⟩ := (isPowerOfTwo_iff sz).mp hp
        exact ⟨Nat.le_of_not_lt h2, k, Or.inl hk⟩
      · rw [if_neg hp]
        by_cases h3 : (sz % 3 == 0 && isPowerOfTwo (sz / 3)) = true
        · rw [if_pos h3]
          simp only [true_iff]
          rw [Bool.and_eq_true, beq_iff_eq] at h3
          obtain ⟨k, hk⟩ := (isPowerOfTwo_iff _).mp h3.2
          refine ⟨Nat.le_of_not_lt h2, k, Or.inr ?_⟩
          omega
        · rw [if_neg h3]
          constructor
          · intro h
            exact absurd h (by decide)
          · rintro ⟨-, k, hk | hk⟩
            · exact absurd ((isPowerOfTwo_iff sz).mpr ⟨k, hk⟩) hp
            · refine absurd ?_ h3
              rw [Bool.and_eq_true, beq_iff_eq]
              exact ⟨by omega, (isPowerOfTwo_iff _).mpr ⟨k, by omega⟩⟩
  · intro results l hl
    exact shiftPolyLoop_dropLast_intermediate results [] [] (by simp) l hl

/-- C4 witness: the theorem's size characterization at `sz = 6` and its
yield property on a concrete run (six shift polynomials: intermediate yields
at lengths 2, 3, 4 and 6, then no extra final yield). -/
theorem c4_witness :
    isIntermediateOutputSize 6 = true ∧
    (getShiftPolysForIdeal true (List.replicate 6 (some ()))).dropLast.all
      (fun l => isIntermediateOutputSize l.length) = true :=
  ⟨(c4_intermediate_sizes.1 6).mpr ⟨by decide, 1, Or.inr rfl⟩,
   by
    rw [List.all_eq_true]
    intro l hl
    exact c4_intermediate_sizes.2 (List.replicate 6 (some ())) l (by simpa using hl)⟩

/-! ## Relations: `cuso/data/relations/relation.py`

A relation is an integer polynomial plus an optional modulus.  Polynomials
over `ZZ[x₁,...,xₖ]` are embedded as their list of (exponent vector,
coefficient) terms; Sage normalizes polynomials, so the terms carry the
nonzero coefficients only and `coefficients()` is the list of those
coefficients. -/

/-- A monomial: the exponent vector over the ring's ordered generators. -/
abbrev Monom := List ℕ

/-- A Sage polynomial over `ZZ`, as its (monomial, nonzero coefficient)
terms. -/
structure Poly where
  terms : List (Monom × ℤ)
deriving DecidableEq, Repr

/-- Sage `polynomial.coefficients()`: the nonzero coefficients. -/
def Poly.coefficients (p : Poly) : List ℤ :=
  p.terms.map Prod.snd

/-- Sage `polynomial.is_constant()`: no term mentions a variable. -/
def Poly.isConstant (p : Poly) : Bool :=
  p.terms.all fun t => t.1.all (· == 0)

/-- Evaluate a monomial at the values of the ring generators (in ring
order). -/
def Monom.evalAt (m : Monom) (vals : List ℤ) : ℤ :=
  (List.zipWith (fun v e => v ^ e) vals m).prod

/-- Evaluate a polynomial at the values of the ring generators. -/
def Poly.evalAt (p : Poly) (vals : List ℤ) : ℤ :=
  (p.terms.map fun t => t.2 * t.1.evalAt vals).sum

/-- A relation modulus value: a known Python `int`, or a symbolic Sage
expression in one unknown-modulus symbol (the only symbolic shape the
claims exercise). -/
inductive ModValue where
  | int (n : ℤ)
  | symbolic (name : Var)
deriving DecidableEq, Repr

/-- A cuso `Relation`: an integer polynomial with an optional modulus. -/
structure Rel where
  polynomial : Poly
  modulus : Option ModValue
deriving DecidableEq, Repr

/-! ## Claim C5: `CoppersmithSolver` graph-optimization default

`cuso/solver/multivariate_solver/partial/coppersmith.py`. -/

/-- `CoppersmithSolver._get_configuration` (`coppersmith.py` lines 135-155):
returns `(modulus_multiple_known, has_symbolic_moduli)` — a multiple of the
modulus is known when some modular relation has a constant polynomial or an
integer modulus; a symbolic modulus is present when some relation's modulus
is neither `None` nor an `int`. -/
def getConfiguration (relations : List Rel) : Bool × Bool :=
  (relations.any fun rel =>
      match rel.modulus with
      | some m => rel.polynomial.isConstant ||
          (match m with | .int _ => true | .symbolic _ => false)
      | none => false,
   relations.any fun rel =>
      match rel.modulus with
      | some (.symbolic _) => true
      | _ => false)

/-- Does a single relation contain more than one coefficient of small
absolute value (`abs(c) < 100`), as tested by the small-coefficient loop? -/
def hasMultipleSmallCoefs (rel : Rel) : Bool :=
  (rel.polynomial.coefficients.filter fun c => c.natAbs < 100).length > 1

/-- The test `self._ul is not None and len(self._ul) > 0` from
`_get_use_graph_optimization`. -/
def ulHintGiven (ul : Option (List Poly)) : Bool :=
  match ul with
  | some l => decide (l.length > 0)
  | none => false

/-- `CoppersmithSolver._get_use_graph_optimization` (`coppersmith.py` lines
107-133), the default when the caller does not pass
`use_graph_optimization`: disabled when no modulus multiple is known;
enabled when unraveled-linearization relations (`ul`) were given (non-empty);
otherwise disabled as soon as some relation has more than one small
coefficient, else enabled. -/
def getUseGraphOptimization (ul : Option (List Poly)) (relations : List Rel) :
    Bool :=
  if !(getConfiguration relations).1 then false
  else if ulHintGiven ul then true
  else if relations.any hasMultipleSmallCoefs then false
  else true

/-- Two relations, each with exactly one small coefficient (so more than one
relation has a small coefficient, but no single relation has two), both with
the known modulus 97. -/
def c5Rels : List Rel :=
  [⟨⟨[([1], 1), ([0], 500)]⟩, some (.int 97)⟩,
   ⟨⟨[([2], 1), ([0], 700)]⟩, some (.int 97)⟩]

/-- C5, counterexample: for `c5Rels` more than one relation has a
small-absolute-value coefficient and no unraveled-linearization hint is
given, so the claim says graph optimization is disabled; the code enables
it, because its test is per-relation (more than one small coefficient
*within a single relation*), not across relations. -/
theorem c5_per_relation_not_across :
    getUseGraphOptimization none c5Rels = true ∧
    1 < (c5Rels.filter fun rel =>
      rel.polynomial.coefficients.any fun c => c.natAbs < 100).length := by
  decide

/-- C5 (amended): with `use_graph_optimization` unspecified, the default is
enabled, except when the modulus multiple is unknown, or when some single
relation has more than one coefficient of absolute value < 100 and no
unraveled-linearization hint was given. -/
theorem c5_graph_optimization_default (ul : Option (List Poly))
    (relations : List Rel) :
    getUseGraphOptimization ul relations = true ↔
      ((getConfiguration relations).1 = true ∧
        (ulHintGiven ul = true ∨
          ∀ rel ∈ relations, hasMultipleSmallCoefs rel = false)) := by
  rw [getUseGraphOptimization]
  by_cases hmod : (getConfiguration relations).1 = true
  · rw [hmod, if_neg (by decide : ¬ ((!true : Bool) = true))]
    by_cases hul : ulHintGiven ul = true
    · rw [if_pos hul]
      simp only [true_iff]
      exact ⟨by trivial, Or.inl hul⟩
    · rw [if_neg hul]
      by_cases hsm : relations.any hasMultipleSmallCoefs = true
      · rw [if_pos hsm]
        constructor
        · intro h
          exact absurd h (by decide)
        · rintro ⟨-, h | h⟩
          · exact absurd h hul
          · obtain ⟨rel, hmem, hrel⟩ := List.any_eq_true.mp hsm
            rw [h rel hmem] at hrel
            exact absurd hrel (by decide)
      · rw [if_neg hsm]
        simp only [true_iff]
        refine ⟨by trivial, Or.inr ?_⟩
        intro rel hmem
        rcases Bool.eq_false_or_eq_true (hasMultipleSmallCoefs rel) with h | h
        · exact absurd (List.any_eq_true.mpr ⟨rel, hmem, h⟩) hsm
        · exact h
  · rw [Bool.not_eq_true] at hmod
    rw [hmod, if_pos (by decide : ((!false : Bool) = true))]
    constructor
    · intro h
      exact absurd h (by decide)
    · rintro ⟨h, -⟩
      exact absurd h (by decide)

/-- C5 witness: via the theorem, a single relation with two small
coefficients and known modulus 97 has graph optimization disabled by
default. -/
theorem c5_witness :
    getUseGraphOptimization none [⟨⟨[([1], 2), ([0], 3)]⟩, some (.int 97)⟩]
      = false :=
  by
    have h := c5_graph_optimization_default none
      [⟨⟨[([1], 2), ([0], 3)]⟩, some (.int 97)⟩]
    rcases Bool.eq_false_or_eq_true
        (getUseGraphOptimization none
          [⟨⟨[([1], 2), ([0], 3)]⟩, some (.int 97)⟩]) with ht | hf
    · rcases (h.mp ht).2 with hc | hc
      · exact absurd hc (by decide)
      · exact absurd
          (hc ⟨⟨[([1], 2), ([0], 3)]⟩, some (.int 97)⟩ (by decide))
          (by decide)
    · exact hf


/-! ## Exceptions and the Coppersmith solve loop

`cuso/exceptions.py` defines `SolveFailureError`, the retryable failure
signal.  Raised exceptions are embedded as `Except.error`; a normal Python
return is `Except.ok`. -/

/-- A raised Python exception relevant to the solver orchestration:
`SolveFailureError` (the retryable signal) or `ValueError` (a fatal
programming error, never caught internally). -/
inductive PyExc where
  | solveFailure (msg : String)
  | valueError (msg : String)
deriving DecidableEq, Repr

/-! ## Claim C2: `CoppersmithSolver.solve` on exhausted shift batches

`coppersmith.py` lines 187-212.  The body of the `for shift_rels in ...`
loop — build lattice, reduce, recover roots — either returns a solution set
normally or raises `SolveFailureError`, which the `except` clause catches
before continuing with the next batch.  We embed the loop as a function of
the per-batch outcomes; `α` stands for the recovered solution set. -/

/-- The `for`/`try`/`except SolveFailureError` loop of
`CoppersmithSolver.solve`: return the first successful batch's solutions;
on `SolveFailureError` continue; when the iterator is exhausted, control
falls off the end of the function and Python returns `None`
(`Except.ok none`) — there is no terminal `raise`. -/
def coppersmithSolveLoop {α : Type} :
    List (Except PyExc α) → Except PyExc (Option α)
  | [] => Except.ok none
  | Except.ok solutions :: _ => Except.ok (some solutions)
  | Except.error (PyExc.solveFailure _) :: rest => coppersmithSolveLoop rest
  | Except.error (PyExc.valueError msg) :: _ =>
      Except.error (PyExc.valueError msg)

/-- C2: if every shift-relation batch fails with `SolveFailureError`, then
`CoppersmithSolver.solve` returns `None` normally — it does not raise
`SolveFailureError`.  This is the divergence: the spec (and the convention
of `AutomatedPartialSolver.solve`, which catches `SolveFailureError` from
each sub-solver and raises its own terminal failure at `automated.py` line
62) requires exhaustion to be a solver failure, but the missing terminal
`raise` makes `solve` return `None`, which later crashes
`AutomatedSolver._expand_solution` with a `TypeError`. -/
theorem c2_exhaustion_returns_none {α : Type}
    (batches : List (Except PyExc α))
    (hfail : ∀ b ∈ batches, ∃ msg, b = Except.error (PyExc.solveFailure msg)) :
    coppersmithSolveLoop batches = Except.ok none := by
  induction batches with
  | nil => rfl
  | cons b rest ih =>
    obtain ⟨msg, rfl⟩ := hfail b (List.mem_cons_self b rest)
    rw [coppersmithSolveLoop]
    exact ih fun b hb => hfail b (List.mem_cons_of_mem _ hb)

/-- C2 witness: a single batch that fails during lattice building, reduction
or root recovery; the loop returns `None` normally instead of raising. -/
theorem c2_witness :
    coppersmithSolveLoop (α := Sol)
      [Except.error (PyExc.solveFailure "Lattice reduction found no short vectors.")]
      = Except.ok none :=
  c2_exhaustion_returns_none
    [Except.error (PyExc.solveFailure "Lattice reduction found no short vectors.")]
    (by
      intro b hb
      rw [List.mem_singleton] at hb
      exact ⟨"Lattice reduction found no short vectors.", hb⟩)


/-! ## Claim C3: `find_small_roots` and the empty result list

`cuso/wrapper.py` lines 468-564 and
`cuso/solver/multivariate_solver/full/automated.py`.  We first embed the
final solution check (`MultivariateCoppersmithProblem.check`,
`Relation.check`, `RelationSet.check`), then the orchestration of
`AutomatedSolver.solve` as a function of the `AutomatedPartialSolver.solve()`
outcome (whose internals go through lattice reduction and are external to
this claim). -/

/-- `Relation.check` (`relation.py` lines 59-77): evaluate the polynomial at
the solution's values for the ring generators; with no modulus the value
must be 0, with an integer modulus it must be divisible by it, and with a
symbolic modulus the modulus is first evaluated at the solution.  The
`getD 0` defaults are never exercised by callers below: `problem.check`
first verifies that all generators and unknown-modulus symbols are
assigned. -/
def Rel.check (ring : List Var) (rel : Rel) (solution : Sol) : Bool :=
  let root := ring.map fun xi => (solution.lookup xi).getD 0
  let value := rel.polynomial.evalAt root
  match rel.modulus with
  | none => value == 0
  | some (.int m) => value % m == 0
  | some (.symbolic p) => value % ((solution.lookup p).getD 0) == 0

/-- `RelationSet.unknown_moduli`: the deduplicated symbols appearing in the
moduli (`relation_set.py` lines 42-45; only membership matters to the
claims). -/
def unknownModuli (relations : List Rel) : List Var :=
  (relations.flatMap fun rel =>
    match rel.modulus with
    | some (.symbolic p) => [p]
    | _ => []).dedup

/-- `MultivariateCoppersmithProblem.check` (`problem.py` lines 47-86): every
solution must assign every ring generator and every unknown-modulus symbol
(else `False`), then satisfy the bounds and all relations. -/
def problemCheck (ring : List Var) (relations : List Rel) (bounds : BoundSet)
    (solutions : List Sol) : Bool :=
  if solutions.all fun soln =>
      (ring.all fun xi => (soln.lookup xi).isSome) &&
      ((unknownModuli relations).all fun pi => (soln.lookup pi).isSome)
  then solutions.all fun soln =>
    BoundSet.check bounds soln && relations.all fun rel => Rel.check ring rel soln
  else false

/-- The `len(old_vars) == 0` branch of
`AutomatedSolver._get_remaining_unknowns` (`automated.py` lines 76-83): when
the partial solution already assigns every ring generator, the candidate is
checked against the problem; it is kept on success and otherwise the
**empty** solution set is returned. -/
def getRemainingUnknownsFull (ring : List Var) (relations : List Rel)
    (bounds : BoundSet) (solution : Sol) : List Sol :=
  if problemCheck ring relations bounds [solution] then [solution] else []

/-- `AutomatedSolver._get_unknown_moduli` (`automated.py` lines 35-71) for
problems with no symbolic moduli: the loop over
`relations.unknown_moduli()` is empty and the partial solution is returned
unchanged (as a copy). -/
def getUnknownModuliNoSym (solution : Sol) : Sol :=
  solution

/-- `AutomatedSolver._expand_solution` (`automated.py` lines 147-163)
composed with the branches above: embeds the executions in which the
relations have no symbolic moduli and every partial solution assigns all
ring generators, so no recursive sub-problem is built. -/
def expandSolutionFull (ring : List Var) (relations : List Rel)
    (bounds : BoundSet) (partials : List Sol) : List Sol :=
  partials.flatMap fun soln =>
    getRemainingUnknownsFull ring relations bounds (getUnknownModuliNoSym soln)

/-- `AutomatedSolver.solve` (`automated.py` lines 165-178) as a function of
the outcome of `AutomatedPartialSolver.solve()` (no `try` surrounds that
call, so its exception propagates); on success the partial solutions are
expanded into full solutions. -/
def automatedSolverSolve (ring : List Var) (relations : List Rel)
    (bounds : BoundSet) (outcome : Except PyExc (List Sol)) :
    Except PyExc (List Sol) :=
  match outcome with
  | Except.error e => Except.error e
  | Except.ok partials =>
      Except.ok (expandSolutionFull ring relations bounds partials)

/-- `find_small_roots` (`wrapper.py` lines 468-564) for already-typed input
relations and bounds (so `varsub` is empty and the final `do_varsub` and
dict conversion are the identity) with `allow_partial_solutions=False`: the
`AutomatedSolver` result is returned as a list; its exception propagates. -/
def findSmallRoots (ring : List Var) (relations : List Rel)
    (bounds : BoundSet) (outcome : Except PyExc (List Sol)) :
    Except PyExc (List Sol) :=
  automatedSolverSolve ring relations bounds outcome

/-- The concrete C3 problem: the single exact relation `x - 5 = 0` with
bound `x ∈ (0, 10)`. -/
def c3Rels : List Rel :=
  [⟨⟨[([1], 1), ([0], -5)]⟩, none⟩]

/-- Bounds for the C3 problem. -/
def c3Bounds : BoundSet :=
  [("x", ⟨some 0, some 10⟩)]

/-- C3, counterexample: a candidate solution `{x = 7}` assigns every
variable but fails the final check (`7 - 5 ≠ 0`); `find_small_roots`
returns the empty list as a normal result instead of raising a failure. -/
theorem c3_returns_empty_list :
    problemCheck ["x"] c3Rels c3Bounds [[("x", 7)]] = false ∧
    findSmallRoots ["x"] c3Rels c3Bounds (Except.ok [[("x", 7)]])
      = Except.ok [] :=
  ⟨by decide, rfl⟩

/-- C3 (amended): `find_small_roots` raises when every strategy is
exhausted — i.e. when `AutomatedPartialSolver.solve` raises — but when the
partial solver produces candidates assigning every variable and every
candidate fails the final check against bounds and relations, the call
returns `[]` as a normal result. -/
theorem c3_failure_propagation (ring : List Var) (relations : List Rel)
    (bounds : BoundSet) (outcome : Except PyExc (List Sol)) :
    (∀ e, outcome = Except.error e →
      findSmallRoots ring relations bounds outcome = Except.error e) ∧
    (∀ partials, outcome = Except.ok partials →
      (∀ s ∈ partials, problemCheck ring relations bounds [s] = false) →
      findSmallRoots ring relations bounds outcome = Except.ok []) := by
  constructor
  · rintro e rfl
    rfl
  · rintro partials rfl hfail
    show Except.ok (expandSolutionFull ring relations bounds partials) = Except.ok []
    congr 1
    induction partials with
    | nil => rfl
    | cons s rest ih =>
      rw [expandSolutionFull] at ih ⊢
      rw [List.flatMap_cons]
      rw [ih fun s hs => hfail s (List.mem_cons_of_mem _ hs)]
      have hs := hfail s (List.mem_cons_self s rest)
      rw [getRemainingUnknownsFull, getUnknownModuliNoSym, if_neg (by rw [hs]; decide)]
      rfl

/-- C3 witness: the amended theorem applied to the concrete problem — the
failing branch (partial solver raised) and the empty-result branch (the
candidate `{x = 7}` fails the check). -/
theorem c3_witness :
    findSmallRoots ["x"] c3Rels c3Bounds
      (Except.error (PyExc.solveFailure "All multivariate solvers failed."))
      = Except.error (PyExc.solveFailure "All multivariate solvers failed.") ∧
    findSmallRoots ["x"] c3Rels c3Bounds (Except.ok [[("x", 6)]])
      = Except.ok [] :=
  ⟨(c3_failure_propagation ["x"] c3Rels c3Bounds
      (Except.error (PyExc.solveFailure "All multivariate solvers failed."))).1
      _ rfl,
   (c3_failure_propagation ["x"] c3Rels c3Bounds
      (Except.ok [[("x", 6)]])).2 [[("x", 6)]] rfl
      (by
        intro s hs
        rw [List.mem_singleton] at hs
        rw [hs]
        decide)⟩


/-! ## Claim C8: recenter round trip

`cuso/strategy/problem_converter/recenter.py`.  `RecenterConverter.run`
computes one center per ring generator from its bounds and renames the
generators with center ≠ 0; `RecenterSolution` converts solutions between
the two variable spaces.  Solutions may also assign symbols that are not
ring generators (e.g. unknown moduli), which pass through unchanged. -/

/-- The centers computed by `RecenterConverter.run` (`recenter.py` lines
140-145): `center = (lbound + ubound) // 2` with Python floor division,
where the bound set must supply both ends for every generator (modelled by
the accessor functions). -/
def recenterCenters (ring : List Var) (lower upper : Var → ℤ) : List ℤ :=
  ring.map fun xi => (lower xi + upper xi).fdiv 2

/-- The renamed generators of `RecenterConverter.run` (`recenter.py` lines
146-150): a generator with center 0 keeps its name, any other gets the
suffix `_c`. -/
def recenterNewNames (ring : List Var) (centers : List ℤ) : List Var :=
  List.zipWith (fun xi ci => if ci = 0 then xi else xi ++ "_c") ring centers

/-- `RecenterSolution.convert_solution_to_new` (`recenter.py` lines 48-57):
keys that are old-ring generators are renamed via their index and shifted
by `- center`; all other keys pass through. -/
def convertSolutionToNew (oldGens newGens : List Var) (centers : List ℤ)
    (solution : Sol) : Sol :=
  solution.map fun kv =>
    if kv.1 ∈ oldGens then
      let ind := oldGens.indexOf kv.1
      (newGens.getD ind kv.1, kv.2 - centers.getD ind 0)
    else kv

/-- `RecenterSolution.convert_solution_to_old` (`recenter.py` lines 37-46):
keys that are new-ring generators are renamed back via their index and
shifted by `+ center`; all other keys pass through. -/
def convertSolutionToOld (oldGens newGens : List Var) (centers : List ℤ)
    (solution : Sol) : Sol :=
  solution.map fun kv =>
    if kv.1 ∈ newGens then
      let ind := newGens.indexOf kv.1
      (oldGens.getD ind kv.1, kv.2 + centers.getD ind 0)
    else kv

/-- C8: for the converter produced by `RecenterConverter.run` — centers
`(lower + upper) // 2`, renamed generators as in the source — converting a
solution from the original space to the recentered space and back returns
it unchanged.  Hypotheses: the rings have distinct generator names (a Sage
`PolynomialRing` guarantees both; `run` would fail to build the new ring
otherwise), and the solution's keys live in the original variable space:
each is an original generator or foreign to both rings. -/
theorem c8_recenter_roundtrip (ring : List Var) (lower upper : Var → ℤ)
    (solution : Sol)
    (hnew : (recenterNewNames ring (recenterCenters ring lower upper)).Nodup)
    (hkeys : ∀ kv ∈ solution, kv.1 ∈ ring ∨
      kv.1 ∉ recenterNewNames ring (recenterCenters ring lower upper)) :
    convertSolutionToOld ring
        (recenterNewNames ring (recenterCenters ring lower upper))
        (recenterCenters ring lower upper)
        (convertSolutionToNew ring
          (recenterNewNames ring (recenterCenters ring lower upper))
          (recenterCenters ring lower upper) solution)
      = solution := by
  set centers := recenterCenters ring lower upper with hcenters
  set newGens := recenterNewNames ring centers with hnewGens
  have hclen : centers.length = ring.length := List.length_map _ _
  have hnlen : newGens.length = ring.length := by
    rw [hnewGens, recenterNewNames, List.length_zipWith, hclen,
      Nat.min_self]
  rw [convertSolutionToNew, convertSolutionToOld, List.map_map]
  conv_rhs => rw [← List.map_id solution]
  refine List.map_congr_left ?_
  intro kv hkv
  by_cases hin : kv.1 ∈ ring
  · have hidx : ring.indexOf kv.1 < ring.length :=
      List.indexOf_lt_length.mpr hin
    have hidxn : ring.indexOf kv.1 < newGens.length := by rw [hnlen]; exact hidx
    have hidxc : ring.indexOf kv.1 < centers.length := by rw [hclen]; exact hidx
    simp only [Function.comp_apply, if_pos hin]
    have hget : newGens.getD (ring.indexOf kv.1) kv.1
        = newGens[ring.indexOf kv.1] := List.getD_eq_getElem _ _ hidxn
    rw [hget]
    have hmemn : newGens[ring.indexOf kv.1] ∈ newGens := List.getElem_mem _
    rw [if_pos hmemn]
    have hindn : newGens.indexOf newGens[ring.indexOf kv.1] = ring.indexOf kv.1 :=
      List.indexOf_getElem hnew _ _
    rw [hindn]
    have hgetold : ring.getD (ring.indexOf kv.1) newGens[ring.indexOf kv.1]
        = ring[ring.indexOf kv.1] := List.getD_eq_getElem _ _ hidx
    rw [hgetold]
    have hback : ring[ring.indexOf kv.1] = kv.1 := List.getElem_indexOf hidx
    rw [hback]
    have hval : kv.2 - centers.getD (ring.indexOf kv.1) 0
        + centers.getD (ring.indexOf kv.1) 0 = kv.2 := by ring
    rw [hval]
    rfl
  · have hout : kv.1 ∉ newGens := (hkeys kv hkv).resolve_left hin
    simp only [Function.comp_apply, if_neg hin, if_neg hout]
    rfl


/-- C8 witness: the theorem applied to the ring `[x, y]` with bounds
`x ∈ (0, 10)` (center 5, renamed `x_c`) and `y ∈ (-3, 3)` (center 0, name
kept), on a solution that also carries a foreign symbol `p`. -/
theorem c8_witness :
    convertSolutionToOld ["x", "y"]
        (recenterNewNames ["x", "y"]
          (recenterCenters ["x", "y"]
            (fun v => if v = "x" then 0 else -3)
            (fun v => if v = "x" then 10 else 3)))
        (recenterCenters ["x", "y"]
          (fun v => if v = "x" then 0 else -3)
          (fun v => if v = "x" then 10 else 3))
        (convertSolutionToNew ["x", "y"]
          (recenterNewNames ["x", "y"]
            (recenterCenters ["x", "y"]
              (fun v => if v = "x" then 0 else -3)
              (fun v => if v = "x" then 10 else 3)))
          (recenterCenters ["x", "y"]
            (fun v => if v = "x" then 0 else -3)
            (fun v => if v = "x" then 10 else 3))
          [("x", 4), ("y", 2), ("p", 11)])
      = [("x", 4), ("y", 2), ("p", 11)] :=
  c8_recenter_roundtrip ["x", "y"]
    (fun v => if v = "x" then 0 else -3)
    (fun v => if v = "x" then 10 else 3)
    [("x", 4), ("y", 2), ("p", 11)]
    (by decide)
    (by decide)


/-! ## Claim C7: Howgrave-Graham dual root recovery

`cuso/strategy/root_recovery/hastad_howgrave_graham.py` and the `Lattice`
accessors it uses from `cuso/data/lattice.py`.  The lattice's shared modulus
may be an integer or a symbolic power; it only enters through
`bounds.get_lower_bound(modulus)`, so the modulus type `μ` and that accessor
are kept abstract. -/

/-- `vec.norm(1)`: the L1 norm of a (scaled, hence rational) vector. -/
def l1norm (v : List ℚ) : ℚ :=
  (v.map fun x => |x|).sum

/-- The square of `vec.norm(2)`: the sum of the squared entries. -/
def l2normSq (v : List ℚ) : ℚ :=
  (v.map fun x => x ^ 2).sum

lemma l2normSq_nonneg (v : List ℚ) : 0 ≤ l2normSq v := by
  rw [l2normSq]
  induction v with
  | nil => simp
  | cons x xs ih =>
    rw [List.map_cons, List.sum_cons]
    have hx : (0 : ℚ) ≤ x ^ 2 := sq_nonneg x
    simpa using add_nonneg hx ih

/-- A reduced Coppersmith dual lattice (`lattice.py`, with
`is_primal=False`): an unscaled integer basis (rows), the ordered column
monomials, the shared modulus, and optional per-column scale factors.
Infinite scale factors occur only in primal lattices, so dual scale factors
are plain rationals. -/
structure DualLattice (μ : Type) where
  basis : List (List ℤ)
  monomials : List Monom
  modulus : Option μ
  scaleFactors : Option (List ℚ)

/-- `Lattice.rank`: the number of basis rows. -/
def DualLattice.rank {μ : Type} (L : DualLattice μ) : ℕ :=
  L.basis.length

/-- `Lattice.dimension`: the number of basis columns. -/
def DualLattice.dimension {μ : Type} (L : DualLattice μ) : ℕ :=
  (L.basis.headD []).length

/-- `Lattice.get_vector`: the unscaled basis row `index` (callers only use
indices below `rank`). -/
def DualLattice.getVector {μ : Type} (L : DualLattice μ) (index : ℕ) : List ℤ :=
  L.basis.getD index []

/-- `Lattice.get_scaled_vector` (`lattice.py` lines 43-69): the basis row
multiplied componentwise by the scale factors, or the row itself when no
scale factors are set. -/
def DualLattice.getScaledVector {μ : Type} (L : DualLattice μ) (index : ℕ) :
    List ℚ :=
  match L.scaleFactors with
  | none => (L.getVector index).map fun z => (z : ℚ)
  | some s => List.zipWith (fun s_i v_i => s_i * (v_i : ℚ)) s (L.getVector index)

/-- The polynomial of `Lattice.get_relation` (`lattice.py` lines 91-111):
`sum(v_i * m_i)` over the unscaled row and the column monomials (Sage keeps
the nonzero terms); `get_relation` pairs it with the lattice modulus, which
`recover_int_relations` immediately replaces by `None`. -/
def DualLattice.relationPoly {μ : Type} (L : DualLattice μ) (index : ℕ) : Poly :=
  ⟨(List.zipWith (fun m_i v_i => (m_i, v_i)) L.monomials (L.getVector index)).filter
    fun t => t.2 != 0⟩

/-- The L1-mode test of `recover_int_relations` (`hastad_howgrave_graham.py`
line 64): `vec.norm(1) < max_l1_norm`. -/
def hgQualifiesL1 (v : List ℚ) (B : ℤ) : Bool :=
  decide (l1norm v < (B : ℚ))

/-- The L2-mode test of `recover_int_relations` (line 71):
`vec.norm(2) / sqrt(dim) < max_l1_norm`, stated as the equivalent decidable
rational comparison (`hgQualifiesL2_iff` proves the equivalence with the
real-valued form computed by Sage). -/
def hgQualifiesL2 (v : List ℚ) (dim : ℕ) (B : ℤ) : Bool :=
  decide (0 < B ∧ l2normSq v < (B : ℚ) ^ 2 * dim)

/-- The L2-mode test is the source's exact real comparison. -/
lemma hgQualifiesL2_iff (v : List ℚ) (dim : ℕ) (B : ℤ) (hdim : 0 < dim) :
    hgQualifiesL2 v dim B = true ↔
      Real.sqrt ((l2normSq v : ℚ) : ℝ) / Real.sqrt (dim : ℕ) < (B : ℝ) := by
  have hd : (0 : ℝ) < (dim : ℝ) := by exact_mod_cast hdim
  have hS : (0 : ℝ) ≤ ((l2normSq v : ℚ) : ℝ) := by
    exact_mod_cast l2normSq_nonneg v
  rw [hgQualifiesL2, decide_eq_true_iff]
  rw [div_lt_iff₀ (Real.sqrt_pos.mpr hd)]
  constructor
  · rintro ⟨hB, hlt⟩
    have hBpos : (0 : ℝ) < (B : ℝ) := by exact_mod_cast hB
    have hrhs : (0 : ℝ) < (B : ℝ) * Real.sqrt (dim : ℝ) :=
      mul_pos hBpos (Real.sqrt_pos.mpr hd)
    rw [show ((B : ℝ) * Real.sqrt (dim : ℝ)) =
        Real.sqrt ((B : ℝ) ^ 2 * (dim : ℝ)) by
      rw [Real.sqrt_mul (sq_nonneg _), Real.sqrt_sq hBpos.le]]
    refine Real.sqrt_lt_sqrt hS ?_
    exact_mod_cast hlt
  · intro hlt
    have hBpos : (0 : ℝ) < (B : ℝ) := by
      by_contra hB
      push_neg at hB
      have h1 : (0 : ℝ) ≤ Real.sqrt ((l2normSq v : ℚ) : ℝ) := Real.sqrt_nonneg _
      have h2 : (B : ℝ) * Real.sqrt (dim : ℝ) ≤ 0 :=
        mul_nonpos_of_nonpos_of_nonneg hB (Real.sqrt_nonneg _)
      linarith
    have hB : 0 < B := by exact_mod_cast hBpos
    refine ⟨hB, ?_⟩
    have hsq : Real.sqrt ((l2normSq v : ℚ) : ℝ) ^ 2 <
        ((B : ℝ) * Real.sqrt (dim : ℝ)) ^ 2 := by
      have h1 : (0 : ℝ) ≤ Real.sqrt ((l2normSq v : ℚ) : ℝ) := Real.sqrt_nonneg _
      exact pow_lt_pow_left₀ hlt h1 (by norm_num)
    rw [Real.sq_sqrt hS, mul_pow, Real.sq_sqrt hd.le] at hsq
    exact_mod_cast hsq

/-- The per-index qualification test of `recover_int_relations` (lines
59-72): the L1 or the L2 test on the scaled basis vector, against the
modulus lower bound `B`. -/
def hgQualifies {μ : Type} (useL1 : Bool) (L : DualLattice μ) (B : ℤ)
    (index : ℕ) : Bool :=
  if useL1 then hgQualifiesL1 (L.getScaledVector index) B
  else hgQualifiesL2 (L.getScaledVector index) L.dimension B

/-- `HastadHowgraveGraham.recover_int_relations`
(`hastad_howgrave_graham.py` lines 37-90): requires a shared modulus
(`ValueError` otherwise), takes `max_l1_norm = bounds.get_lower_bound(modulus)`
(abstracted as `lowerBound`), collects the basis indices passing the norm
test, raises `SolveFailureError` when none qualifies, and otherwise returns
each qualifying row as a relation with modulus `None`. -/
def recoverIntRelations {μ : Type} (useL1 : Bool) (L : DualLattice μ)
    (lowerBound : μ → ℤ) : Except PyExc (List Rel) :=
  match L.modulus with
  | none =>
      Except.error (PyExc.valueError "HG root recovery requires modular relation ideal.")
  | some m =>
      let inds := (List.range L.rank).filter (hgQualifies useL1 L (lowerBound m))
      if inds.length = 0 then
        Except.error (PyExc.solveFailure "Lattice reduction found no short vectors.")
      else
        Except.ok (inds.map fun i => ⟨L.relationPoly i, none⟩)

/-- C7: with a shared modulus present and a nonempty lattice, a basis vector
qualifies iff its L1 norm (or, in L2 mode, its L2 norm divided by the square
root of the lattice dimension) is strictly below the modulus's lower bound;
`recover_int_relations` raises `SolveFailureError` exactly when no vector
qualifies, and otherwise returns one `modulus=None` relation over the
lattice's monomials per qualifying vector. -/
theorem c7_hg_recovery {μ : Type} (useL1 : Bool) (L : DualLattice μ)
    (lowerBound : μ → ℤ) (m : μ)
    (hm : L.modulus = some m) (hdim : 0 < L.dimension) :
    ((recoverIntRelations useL1 L lowerBound =
        Except.error (PyExc.solveFailure "Lattice reduction found no short vectors.")) ↔
      (List.range L.rank).filter (hgQualifies useL1 L (lowerBound m)) = []) ∧
    ((List.range L.rank).filter (hgQualifies useL1 L (lowerBound m)) ≠ [] →
      recoverIntRelations useL1 L lowerBound =
        Except.ok
          (((List.range L.rank).filter (hgQualifies useL1 L (lowerBound m))).map
            fun i => ⟨L.relationPoly i, none⟩)) ∧
    (∀ i, hgQualifies useL1 L (lowerBound m) i = true ↔
      (if useL1 then l1norm (L.getScaledVector i) < ((lowerBound m : ℤ) : ℚ)
       else Real.sqrt ((l2normSq (L.getScaledVector i) : ℚ) : ℝ) /
          Real.sqrt (L.dimension : ℕ) < ((lowerBound m : ℤ) : ℝ))) := by
  have hrec : recoverIntRelations useL1 L lowerBound =
      (let inds := (List.range L.rank).filter (hgQualifies useL1 L (lowerBound m))
       if inds.length = 0 then
         Except.error (PyExc.solveFailure "Lattice reduction found no short vectors.")
       else
         Except.ok (inds.map fun i => ⟨L.relationPoly i, none⟩)) := by
    rw [recoverIntRelations, hm]
  refine ⟨?_, ?_, ?_⟩
  · rw [hrec]
    by_cases hempty :
        ((List.range L.rank).filter (hgQualifies useL1 L (lowerBound m))).length = 0
    · simp only [if_pos hempty, true_iff]
      exact List.length_eq_zero.mp hempty
    · simp only [if_neg hempty]
      constructor
      · intro h
        exact absurd h (by simp)
      · intro h
        exact absurd (by rw [h]; rfl) hempty
  · intro hne
    rw [hrec]
    rw [if_neg fun h => hne (List.length_eq_zero.mp h)]
  · intro i
    rw [hgQualifies]
    by_cases hl1 : useL1 = true
    · rw [hl1, if_pos rfl, if_pos rfl, hgQualifiesL1, decide_eq_true_iff]
    · rw [Bool.not_eq_true] at hl1
      rw [hl1]
      simp only [Bool.false_eq_true, if_false]
      exact hgQualifiesL2_iff _ _ _ hdim

/-- C7 witness: the theorem applied in L1 mode to a concrete reduced dual
lattice with integer modulus 10 (lower bound = itself): the first row
qualifies (L1 norm 3 < 10), the second does not (50 ≥ 10), and the result
is the first row as a modulus-`None` relation. -/
theorem c7_witness :
    ((recoverIntRelations true
        (⟨[[3, 0], [0, 50]], [[1], [2]], some (10 : ℤ), none⟩ : DualLattice ℤ)
        (fun n => n) =
        Except.error (PyExc.solveFailure "Lattice reduction found no short vectors.")) ↔
      (List.range
          (DualLattice.rank
            (⟨[[3, 0], [0, 50]], [[1], [2]], some (10 : ℤ), none⟩ : DualLattice ℤ))).filter
        (hgQualifies true
          (⟨[[3, 0], [0, 50]], [[1], [2]], some (10 : ℤ), none⟩ : DualLattice ℤ) 10) = []) ∧
    ((List.range
          (DualLattice.rank
            (⟨[[3, 0], [0, 50]], [[1], [2]], some (10 : ℤ), none⟩ : DualLattice ℤ))).filter
        (hgQualifies true
          (⟨[[3, 0], [0, 50]], [[1], [2]], some (10 : ℤ), none⟩ : DualLattice ℤ) 10) ≠ [] →
      recoverIntRelations true
        (⟨[[3, 0], [0, 50]], [[1], [2]], some (10 : ℤ), none⟩ : DualLattice ℤ)
        (fun n => n) =
        Except.ok
          (((List.range
              (DualLattice.rank
                (⟨[[3, 0], [0, 50]], [[1], [2]], some (10 : ℤ), none⟩ : DualLattice ℤ))).filter
            (hgQualifies true
              (⟨[[3, 0], [0, 50]], [[1], [2]], some (10 : ℤ), none⟩ : DualLattice ℤ) 10)).map
            fun i =>
              ⟨DualLattice.relationPoly
                (⟨[[3, 0], [0, 50]], [[1], [2]], some (10 : ℤ), none⟩ : DualLattice ℤ) i,
               none⟩)) ∧
    (∀ i, hgQualifies true
        (⟨[[3, 0], [0, 50]], [[1], [2]], some (10 : ℤ), none⟩ : DualLattice ℤ) 10 i = true ↔
      (if true then
        l1norm
          (DualLattice.getScaledVector
            (⟨[[3, 0], [0, 50]], [[1], [2]], some (10 : ℤ), none⟩ : DualLattice ℤ) i) <
          ((10 : ℤ) : ℚ)
       else Real.sqrt
          ((l2normSq
            (DualLattice.getScaledVector
              (⟨[[3, 0], [0, 50]], [[1], [2]], some (10 : ℤ), none⟩ : DualLattice ℤ) i) : ℚ) : ℝ) /
          Real.sqrt
            ((DualLattice.dimension
              (⟨[[3, 0], [0, 50]], [[1], [2]], some (10 : ℤ), none⟩ : DualLattice ℤ)) : ℕ) <
          ((10 : ℤ) : ℝ))) :=
  c7_hg_recovery true
    (⟨[[3, 0], [0, 50]], [[1], [2]], some (10 : ℤ), none⟩ : DualLattice ℤ)
    (fun n => n) 10 rfl (by decide)


/-! ## Claim C6: `RelationIdealGenerator.run` yield order

`cuso/utils.py` (`weighted_combinations`) and
`cuso/strategy/ideal_selection/ideal_selection.py`.  `run` iterates
`weighted_combinations(weights)` where `weights[i] = log2` of the lower
bound of the `i`-th coprime factor, skips the all-zero multiplicity, builds
`_get_ideal(exp)` and yields it.  We embed the heap-driven generator (exact
rationals standing for the float scores; the concrete weights below are
`log2` of powers of two, which IEEE doubles represent exactly), the
`_get_ideal` modulus recursion, and the modulus-lower-bound computation. -/

/-- Python tuple comparison on integer tuples (lexicographic). -/
def listLtB : List ℤ → List ℤ → Bool
  | [], [] => false
  | [], _ :: _ => true
  | _ :: _, [] => false
  | a :: as, b :: bs => decide (a < b) || (decide (a = b) && listLtB as bs)

/-! The exact-real score type `K` standing for Python floats.  The score
arithmetic of `weighted_combinations` is sums of products of weights and
small integers; every weight in the concrete traces below is an integer
value that doubles represent exactly, so any linear ordered commutative
ring carries the computation faithfully (`ℚ` for the general statement,
`ℤ` for the executable counterexample). -/

variable {K : Type} [LinearOrderedCommRing K]

/-- Python tuple comparison on `(score, exps)` heap entries: score first,
then the exponent tuple. -/
def entryLtB (x y : K × List ℤ) : Bool :=
  decide (x.1 < y.1) || (decide (x.1 = y.1) && listLtB x.2 y.2)

/-- The minimum of `m` and the entries of a list under `entryLtB`. -/
def heapMinAux (m : K × List ℤ) : List (K × List ℤ) → K × List ℤ
  | [] => m
  | x :: xs => heapMinAux (if entryLtB x m then x else m) xs

/-- `heapq.heappop`: remove and return the smallest entry in Python tuple
order (duplicate tuples never coexist, so ties are immaterial). -/
def heapPop (h : List (K × List ℤ)) :
    Option ((K × List ℤ) × List (K × List ℤ)) :=
  match h with
  | [] => none
  | x :: xs =>
      let m := heapMinAux x xs
      some (m, (x :: xs).erase m)

/-- `sum(ai * bi for ai, bi in zip(weights, new_exps))` (`utils.py` line
33). -/
def dotW (w : List K) (e : List ℤ) : K :=
  (List.zipWith (fun (wi : K) (ei : ℤ) => wi * (ei : K)) w e).sum

/-- `new_exps = list(exps); new_exps[i] += 1`. -/
def bumpAt (e : List ℤ) (i : ℕ) : List ℤ :=
  e.set i (e.getD i 0 + 1)

/-- The push loop of `weighted_combinations` (`utils.py` lines 29-35): for
each coordinate, push the incremented exponent vector with its recomputed
score unless that exact entry is already in the heap. -/
def pushChildren (w : List K) (exps : List ℤ)
    (heap : List (K × List ℤ)) : List (K × List ℤ) :=
  (List.range w.length).foldl
    (fun h i =>
      let ne := bumpAt exps i
      let ns := dotW w ne
      if (ns, ne) ∈ h then h else h ++ [(ns, ne)])
    heap

/-- The generator loop of `weighted_combinations`, unrolled for `count`
yields: pop the minimum, push its children, yield `(exps, score)`. -/
def wcYields (w : List K) : ℕ → List (K × List ℤ) → List (List ℤ × K)
  | 0, _ => []
  | count + 1, heap =>
      match heapPop heap with
      | none => []
      | some (m, rest) =>
          (m.2, m.1) :: wcYields w count (pushChildren w m.2 rest)

/-- `weighted_combinations(weights)` (`utils.py` lines 9-36), truncated to
its first `count` yields, starting from the heap `[(0, (0,)*n)]`. -/
def weightedCombinations (w : List K) (count : ℕ) : List (List ℤ × K) :=
  wcYields w count [(0, List.replicate w.length 0)]

lemma entryLtB_false_le {x m : K × List ℤ} (h : entryLtB x m = false) :
    m.1 ≤ x.1 := by
  rw [entryLtB, Bool.or_eq_false_iff] at h
  have := of_decide_eq_false h.1
  exact le_of_not_lt this

lemma entryLtB_true_le {x m : K × List ℤ} (h : entryLtB x m = true) :
    x.1 ≤ m.1 := by
  rw [entryLtB, Bool.or_eq_true] at h
  rcases h with h | h
  · exact le_of_lt (of_decide_eq_true h)
  · rw [Bool.and_eq_true] at h
    exact le_of_eq (of_decide_eq_true h.1)

lemma heapMinAux_le (xs : List (K × List ℤ)) : ∀ (m : K × List ℤ),
    (heapMinAux m xs).1 ≤ m.1 ∧ ∀ y ∈ xs, (heapMinAux m xs).1 ≤ y.1 := by
  induction xs with
  | nil =>
    intro m
    exact ⟨le_rfl, by simp⟩
  | cons x xs ih =>
    intro m
    rw [heapMinAux]
    rcases Bool.eq_false_or_eq_true (entryLtB x m) with ht | hf
    · rw [if_pos ht]
      obtain ⟨h1, h2⟩ := ih x
      refine ⟨h1.trans (entryLtB_true_le ht), ?_⟩
      intro y hy
      rcases List.mem_cons.mp hy with heq | hy
      · rw [heq]; exact h1
      · exact h2 y hy
    · rw [if_neg (by rw [hf]; exact Bool.false_ne_true)]
      obtain ⟨h1, h2⟩ := ih m
      refine ⟨h1, ?_⟩
      intro y hy
      rcases List.mem_cons.mp hy with heq | hy
      · rw [heq]; exact h1.trans (entryLtB_false_le hf)
      · exact h2 y hy

lemma heapMinAux_mem (xs : List (K × List ℤ)) : ∀ (m : K × List ℤ),
    heapMinAux m xs ∈ m :: xs := by
  induction xs with
  | nil => intro m; simp [heapMinAux]
  | cons x xs ih =>
    intro m
    rw [heapMinAux]
    rcases Bool.eq_false_or_eq_true (entryLtB x m) with ht | hf
    · rw [if_pos ht]
      rcases List.mem_cons.mp (ih x) with h | h
      · rw [h]; exact List.mem_cons_of_mem _ (List.mem_cons_self _ _)
      · exact List.mem_cons_of_mem _ (List.mem_cons_of_mem _ h)
    · rw [if_neg (by rw [hf]; exact Bool.false_ne_true)]
      rcases List.mem_cons.mp (ih m) with h | h
      · rw [h]; exact List.mem_cons_self _ _
      · exact List.mem_cons_of_mem _ (List.mem_cons_of_mem _ h)

lemma heapPop_spec {h : List (K × List ℤ)} {m : K × List ℤ}
    {rest : List (K × List ℤ)} (hpop : heapPop h = some (m, rest)) :
    m ∈ h ∧ (∀ y ∈ h, m.1 ≤ y.1) ∧ ∀ y ∈ rest, y ∈ h := by
  cases h with
  | nil => exact absurd hpop (by rw [heapPop]; exact fun hc => Option.noConfusion hc)
  | cons x xs =>
    rw [heapPop] at hpop
    simp only [Option.some.injEq, Prod.mk.injEq] at hpop
    obtain ⟨rfl, rfl⟩ := hpop
    refine ⟨heapMinAux_mem xs x, ?_, ?_⟩
    · intro y hy
      rcases List.mem_cons.mp hy with heq | hy
      · rw [heq]
        exact (heapMinAux_le xs x).1
      · exact (heapMinAux_le xs x).2 y hy
    · intro y hy
      exact List.erase_subset _ _ hy

lemma dotW_bump (w : List K) : ∀ (e : List ℤ) (i : ℕ),
    i < w.length → e.length = w.length →
    dotW w (bumpAt e i) = dotW w e + w.getD i 0 := by
  induction w with
  | nil => intro e i hi _; exact absurd hi (by simp)
  | cons wi w ih =>
    intro e i hi hlen
    match e with
    | ei :: e' =>
      match i with
      | 0 =>
        rw [bumpAt]
        simp only [List.set_cons_zero, List.getD_cons_zero]
        rw [dotW, dotW, List.zipWith_cons_cons, List.zipWith_cons_cons,
          List.sum_cons, List.sum_cons]
        show wi * ((ei + 1 : ℤ) : K) + _ = wi * (ei : K) + _ + wi
        push_cast
        ring
      | i + 1 =>
        rw [bumpAt]
        simp only [List.set_cons_succ, List.getD_cons_succ]
        rw [dotW, dotW, List.zipWith_cons_cons, List.zipWith_cons_cons,
          List.sum_cons, List.sum_cons]
        have := ih e' i (by simpa using hi) (by simpa using hlen)
        rw [bumpAt] at this
        rw [dotW, dotW] at this
        linarith

lemma dotW_replicate_zero (w : List K) :
    dotW w (List.replicate w.length 0) = 0 := by
  induction w with
  | nil => rfl
  | cons wi w ihw =>
    rw [List.length_cons, List.replicate_succ, dotW, List.zipWith_cons_cons,
      List.sum_cons]
    rw [dotW] at ihw
    rw [ihw]
    simp

lemma bumpAt_length (e : List ℤ) (i : ℕ) : (bumpAt e i).length = e.length := by
  rw [bumpAt, List.length_set]

/-- Invariant carried by the heap: every entry's stored score is the exact
dot product of its exponent vector (scores are always recomputed in full at
push time), the vectors have the weights' length, and every score is at
least the floor `s`. -/
def HeapInv (w : List K) (s : K) (heap : List (K × List ℤ)) : Prop :=
  ∀ p ∈ heap, s ≤ p.1 ∧ p.1 = dotW w p.2 ∧ p.2.length = w.length

lemma pushChildren_inv (w : List K) (hw : ∀ x ∈ w, 0 ≤ x)
    (exps : List ℤ) (hlen : exps.length = w.length) (s : K)
    (hs : s = dotW w exps) (heap : List (K × List ℤ))
    (hheap : HeapInv w s heap) : HeapInv w s (pushChildren w exps heap) := by
  rw [pushChildren]
  have hgen : ∀ (idxs : List ℕ) (h : List (K × List ℤ)), HeapInv w s h →
      (∀ i ∈ idxs, i < w.length) →
      HeapInv w s (idxs.foldl
        (fun h i =>
          let ne := bumpAt exps i
          let ns := dotW w ne
          if (ns, ne) ∈ h then h else h ++ [(ns, ne)]) h) := by
    intro idxs
    induction idxs with
    | nil => intro h hh _; exact hh
    | cons i idxs ih =>
      intro h hh hidx
      rw [List.foldl_cons]
      refine ih _ ?_ (fun j hj => hidx j (List.mem_cons_of_mem _ hj))
      by_cases hin : (dotW w (bumpAt exps i), bumpAt exps i) ∈ h
      · simpa [hin] using hh
      · simp only [if_neg hin]
        intro p hp
        rcases List.mem_append.mp hp with hp | hp
        · exact hh p hp
        · rw [List.mem_singleton.mp hp]
          have hi : i < w.length := hidx i (List.mem_cons_self _ _)
          have hbump := dotW_bump w exps i hi hlen
          have hwge : 0 ≤ w.getD i 0 := by
            have : w.getD i 0 = w[i] := List.getD_eq_getElem w 0 hi
            rw [this]
            exact hw _ (List.getElem_mem hi)
          refine ⟨?_, rfl, (bumpAt_length exps i).trans hlen⟩
          rw [hbump, hs]
          simpa using hwge
  refine hgen _ heap hheap ?_
  intro i hi
  exact List.mem_range.mp hi

lemma wcYields_monotone (w : List K) (hw : ∀ x ∈ w, 0 ≤ x) :
    ∀ (count : ℕ) (heap : List (K × List ℤ)) (s : K), HeapInv w s heap →
    (∀ q ∈ (wcYields w count heap).map Prod.snd, s ≤ q) ∧
      List.Pairwise (· ≤ ·) ((wcYields w count heap).map Prod.snd) := by
  intro count
  induction count with
  | zero =>
    intro heap s _
    exact ⟨by simp [wcYields], by simp [wcYields]⟩
  | succ k ih =>
    intro heap s hinv
    rw [wcYields]
    match hpop : heapPop heap with
    | none => exact ⟨by simp, by simp⟩
    | some (m, rest) =>
      obtain ⟨hmem, hmin, hsub⟩ := heapPop_spec hpop
      obtain ⟨hms, hmdot, hmlen⟩ := hinv m hmem
      have hrest : HeapInv w m.1 (pushChildren w m.2 rest) := by
        refine pushChildren_inv w hw m.2 hmlen m.1 hmdot _ ?_
        intro p hp
        obtain ⟨_, hdot, hlen2⟩ := hinv p (hsub p hp)
        exact ⟨hmin p (hsub p hp), hdot, hlen2⟩
      obtain ⟨hall, hpair⟩ := ih (pushChildren w m.2 rest) m.1 hrest
      simp only [List.map_cons]
      constructor
      · intro q hq
        rcases List.mem_cons.mp hq with heq | hq
        · rw [heq]; exact hms
        · exact hms.trans (hall q hq)
      · rw [List.pairwise_cons]
        exact ⟨fun q hq => hall q hq, hpair⟩

/-- C6 (amended): the multiplicity vectors — and with them the ideals of
`RelationIdealGenerator.run` — are produced in non-decreasing order of the
heap score `Σᵢ expᵢ · weightᵢ` (`weights[i] = log2(lower bound of factor i)`,
all nonnegative since factor lower bounds are at least 1): the scores
yielded by `weighted_combinations` are pairwise non-decreasing.  The modulus
lower bound itself is *not* always in non-decreasing order (see the
counterexample): `_get_ideal` can overshoot the multiplicity when a base
ideal's exponent vector exceeds it. -/
theorem c6_scores_monotone {K : Type} [LinearOrderedCommRing K]
    (w : List K) (hw : ∀ x ∈ w, 0 ≤ x) (count : ℕ) :
    List.Pairwise (· ≤ ·) ((weightedCombinations w count).map Prod.snd) := by
  rw [weightedCombinations]
  refine (wcYields_monotone w hw count [(0, List.replicate w.length 0)] 0 ?_).2
  intro p hp
  rw [List.mem_singleton.mp hp]
  exact ⟨le_rfl, (dotW_replicate_zero w).symm, by simp⟩

/-- C6 witness: the amended theorem at the counterexample's exact float
weights `[10.0, 1.0]` (as rationals). -/
theorem c6_witness :
    List.Pairwise (· ≤ ·)
      (((weightedCombinations [(10 : ℚ), 1] 13)).map Prod.snd) :=
  c6_scores_monotone [(10 : ℚ), 1] (by
    intro x hx
    rcases List.mem_cons.mp hx with rfl | hx
    · norm_num
    · rcases List.mem_cons.mp hx with rfl | hx
      · norm_num
      · exact absurd hx (by simp)) 13

/-! ### The C6 counterexample trace

Concrete input refuting the claim: the two relations
`x + 3 ≡ 0 (mod p²)` and `x + 5 ≡ 0 (mod q)` with symbolic moduli bounded by
`p ∈ (1024, 2048)`, `q ∈ (2, 4)` (and any bound on `x`).
`_get_base_ideals` (`ideal_selection.py` lines 78-150) leaves both relations
unchanged (their coefficient/modulus gcds are 1), collects the moduli
`{p², q}`, finds the coprime factors `[p, q]` (or `[q, p]`: the order of
`list(set(moduli))` is an unspecified Python set order, so both are covered
below), expresses the moduli as exponent vectors over the factors —
`p² ↦ (2,0)`, `q ↦ (0,1)` in the first order — and builds one base ideal per
vector with that modulus.  The weights of `run` are
`log2(lower bound of factor)`, i.e. exactly `10.0` and `1.0` (doubles are
exact on powers of two).  Moduli arising in this trace are integer multiples
of monomials in the factors, embedded as a content and an exponent vector;
Sage's `*` adds exponents and multiplies contents, `gcd` takes the content
gcd and the exponentwise minimum. -/

/-- A modulus value arising in `_get_ideal`: `content · Π factorᵢ ^ expsᵢ`.
`MC.c 1 []`-style values with zero exponents are plain integers. -/
inductive MC where
  | c (content : ℤ) (exps : List ℤ)
deriving DecidableEq, Repr

/-- Sage multiplication of such modulus values. -/
def MC.mulE : MC → MC → MC
  | MC.c n1 e1, MC.c n2 e2 => MC.c (n1 * n2) (List.zipWith (· + ·) e1 e2)

/-- Sage `gcd` of such modulus values (content gcd, exponentwise min). -/
def MC.gcdE : MC → MC → MC
  | MC.c n1 e1, MC.c n2 e2 =>
      MC.c (Int.gcd n1 n2) (List.zipWith min e1 e2)

/-- `RelationIdeal.__add__` modulus bookkeeping (`relation_ideal.py` lines
86-93) on symbolic modulus values. -/
def idealAddModulus : Option MC → Option MC → Option MC
  | none, b => b
  | some a, none => some a
  | some a, some b => some (MC.gcdE a b)

/-- `RelationIdeal.__mul__` modulus bookkeeping (`relation_ideal.py` lines
119-124) on symbolic modulus values. -/
def idealMulModulus : Option MC → Option MC → Option MC
  | none, b => b
  | some a, none => some a
  | some a, some b => some (MC.mulE a b)

/-- `itertools.product(*[range(d+1) for d in exp])`: all componentwise
sub-vectors, leftmost coordinate slowest. -/
def diffProduct : List ℤ → List (List ℤ)
  | [] => [[]]
  | d :: rest =>
      ((List.range (d.toNat + 1)).map fun a => (a : ℤ)).flatMap fun a =>
        (diffProduct rest).map (a :: ·)

/-- `all(ai <= bi for ai, bi in zip(applied_diff, diff))`. -/
def dominates (a b : List ℤ) : Bool :=
  (List.zipWith (fun x y => decide (x ≤ y)) a b).all id

/-- The `for diff in diffgen` loop inside `_get_ideal`
(`ideal_selection.py` lines 168-191) for one base ideal with exponent vector
`key` and modulus `MC.c 1 key`: skip `diff == exp`; `break` once a
previously applied diff dominates the current one; recurse on
`multiplicity - exp + diff`, skipping invalid (`None`) sub-ideals; each
applied term contributes `ideal1 * ideal2` to the running sum `J`. -/
def diffLoop (recurse : List ℤ → Option (Option MC)) (mult key : List ℤ) :
    List (List ℤ) → List (List ℤ) → Option MC → Option MC
  | [], _, J => J
  | diff :: rest, applied, J =>
      if diff == key then diffLoop recurse mult key rest applied J
      else if applied.any fun a => dominates a diff then J
      else
        let smaller := List.zipWith (· + ·)
          (List.zipWith (· - ·) mult key) diff
        match recurse smaller with
        | none => diffLoop recurse mult key rest applied J
        | some mod2 =>
            diffLoop recurse mult key rest (applied ++ [diff])
              (idealAddModulus J (idealMulModulus (some (MC.c 1 key)) mod2))

/-- One unfolding of `_get_ideal` (`ideal_selection.py` lines 152-194),
tracking the modulus only: invalid below zero; the int `1` at multiplicity
zero; otherwise the fold of `diffLoop` over the base ideals starting from
`J_inf` (modulus `None`). -/
def getIdealModBody (keys : List (List ℤ))
    (recurse : List ℤ → Option (Option MC)) (mult : List ℤ) :
    Option (Option MC) :=
  if mult.any fun x => decide (x < 0) then none
  else if mult.all fun x => x == 0 then
    some (some (MC.c 1 (List.replicate mult.length 0)))
  else
    some (keys.foldl
      (fun J key => diffLoop recurse mult key (diffProduct key) [] J)
      none)

/-- `_get_ideal` with a recursion-depth budget `fuel` (each recursive call
strictly decreases the multiplicity's sum, so any `fuel` larger than the
sum reproduces the memoized Python recursion exactly; the computations
below use a fuel with ample slack). -/
def getIdealModFn (keys : List (List ℤ)) (fuel : ℕ) :
    List ℤ → Option (Option MC) :=
  Nat.rec (fun _ => none) (fun _ ih => getIdealModBody keys ih) fuel

/-- `bounds.get_lower_bound` of a factor-monomial modulus
(`bound_set.py` lines 18-45): substitute each factor's lower bound
(`expr.subs(lower_bounds)`), i.e. `content · Π lbᵢ ^ expsᵢ`; an integer
modulus (zero exponents) is returned as itself. -/
def mcLowerBound (lbs : List ℤ) : MC → ℤ
  | MC.c n e =>
      n * (List.zipWith (fun (l : ℤ) (x : ℤ) => l ^ x.toNat) lbs e).prod

/-- The data `_get_base_ideals` derives for the counterexample input, for
one of the two possible set orders: the base-ideal exponent keys (dict
order), the weights `log2(lb)` of `run`, and the factor lower bounds. -/
structure IdealConfig where
  keys : List (List ℤ)
  weights : List ℤ
  lbs : List ℤ

/-- The yield sequence of `RelationIdealGenerator.run`
(`ideal_selection.py` lines 196-235), truncated to the first `count` heap
pops: iterate `weighted_combinations(weights)`, skip the zero multiplicity,
and pair each yielded multiplicity with
`bounds.get_lower_bound(_get_ideal(exp).modulus)` (`none` if the ideal is
invalid or its modulus is `None`, which does not occur in this trace). -/
def runYieldBounds (cfg : IdealConfig) (count fuel : ℕ) :
    List (List ℤ × Option ℤ) :=
  ((weightedCombinations cfg.weights count).filter fun y => y.1.sum != 0).map
    fun y => (y.1,
      match getIdealModFn cfg.keys fuel y.1 with
      | some (some mc) => some (mcLowerBound cfg.lbs mc)
      | _ => none)

/-- Factor order `[p, q]`: keys `p² ↦ (2,0)`, `q ↦ (0,1)`; weights
`[log2 1024, log2 2] = [10, 1]`; lower bounds `[1024, 2]`. -/
def c6ConfigA : IdealConfig :=
  ⟨[[2, 0], [0, 1]], [10, 1], [1024, 2]⟩

/-- Factor order `[q, p]`: keys `q ↦ (1,0)`, `p² ↦ (0,2)`; weights
`[1, 10]`; lower bounds `[2, 1024]`. -/
def c6ConfigB : IdealConfig :=
  ⟨[[1, 0], [0, 2]], [1, 10], [2, 1024]⟩

/-- C6, counterexample: on the two-relation input above (either set order),
`run` yields the multiplicity-(1,0) ideal — whose modulus is `p²` with lower
bound `2^20` — strictly before an ideal whose modulus lower bound is only
`2^11` (resp. `2^10`): the modulus-lower-bound sequence is not
non-decreasing.  The cause: the only base ideal containing `p` has exponent
2, so `_get_ideal((1,0))` overshoots to modulus `p²` while its heap score is
only `1 · log2(1024)`. -/
theorem c6_bound_order_violated :
    ((runYieldBounds c6ConfigA 13 20)[10]? = some ([1, 0], some 1048576) ∧
     (runYieldBounds c6ConfigA 13 20)[11]? = some ([0, 11], some 2048) ∧
     (2048 : ℤ) < 1048576) ∧
    ((runYieldBounds c6ConfigB 12 20)[9]? = some ([0, 1], some 1048576) ∧
     (runYieldBounds c6ConfigB 12 20)[10]? = some ([10, 0], some 1024) ∧
     (1024 : ℤ) < 1048576) := by
  decide

end Cuso
